import Mathlib

/-!
Shallow embedding of the Markdown-subset-to-document compiler of the
Assignment-Generator repository (files `enhanced_agent.py` and
`simple_odt_test.py`), together with theorems settling the frozen claims.

Lines of text are modelled as `List Char`.  Python whitespace handling
(`str.strip`, `str.lstrip`, `str.rstrip`, `str.split`, the regex classes
`\s` and `\d`) is modelled over the ASCII whitespace characters; input
lines reaching the classifiers never contain a newline because they are
produced by splitting on `'\n'`.
-/

namespace AssignGen

/-- The whitespace characters recognised by Python `str.strip` / regex `\s`
(restricted to the ASCII range). -/
def isSpace (c : Char) : Bool :=
  c = ' ' || c = '\t' || c = '\n' || c = '\r' ||
  c = Char.ofNat 11 || c = Char.ofNat 12

/-- Decimal digit test, Python regex `\d` (ASCII). -/
def isDigit (c : Char) : Bool := '0' ≤ c && c ≤ '9'

/-- Python `str.lstrip()`. -/
def lstrip (l : List Char) : List Char := l.dropWhile isSpace

/-- Python `str.rstrip()`. -/
def rstrip (l : List Char) : List Char := (l.reverse.dropWhile isSpace).reverse

/-- Python `str.strip()`. -/
def strip (l : List Char) : List Char := lstrip (rstrip l)

/-- Python `text.split('\n')`: `"".split('\n') = [""]`, and a separator at
either end yields an empty piece there. -/
def splitOnNl (l : List Char) : List (List Char) :=
  match l with
  | [] => [[]]
  | c :: rest =>
    let r := splitOnNl rest
    if c = '\n' then [] :: r
    else
      match r with
      | [] => [[c]]
      | h :: t => (c :: h) :: t

theorem dropWhile_length_le {α : Type} (p : α → Bool) (l : List α) :
    (l.dropWhile p).length ≤ l.length := by
  induction l with
  | nil => simp
  | cons x xs ih =>
    rw [List.dropWhile_cons]
    split
    · exact Nat.le_succ_of_le ih
    · simp

/-- Fueled worker for `words`; the fuel strictly exceeds the number of
words, so `wordsF l.length l` computes Python `text.split()` exactly. -/
def wordsF : Nat → List Char → List (List Char)
  | 0, _ => []
  | fuel + 1, l =>
    match lstrip l with
    | [] => []
    | c :: rest =>
      (c :: rest.takeWhile (fun x => !isSpace x)) ::
        wordsF fuel (rest.dropWhile (fun x => !isSpace x))

/-- Python `text.split()` (split on whitespace runs, dropping empty pieces). -/
def words (l : List Char) : List (List Char) := wordsF l.length l

/-- Python `' '.join(ws)`. -/
def joinSp : List (List Char) → List Char
  | [] => []
  | [w] => w
  | w :: ws => w ++ ' ' :: joinSp ws

/-- Python `startswith(('- ', '* ', '+ '))`. -/
def uMarkerQ (l : List Char) : Bool :=
  match l with
  | c :: c2 :: _ => (c = '-' || c = '*' || c = '+') && c2 = ' '
  | _ => false

/-- The separator character class `[\.|\)]` of the ordered-item regexes:
it matches `'.'`, a literal `'|'`, or `')'`. -/
def sepQ (c : Char) : Bool := c = '.' || c = '|' || c = ')'

/-- The guard regex `^\s*\d+[\.|\)]\s+` used by `_markdown_to_odt_content`
before opening a numbered-list container. -/
def matchOrderedCond (l : List Char) : Bool :=
  let r := lstrip l
  let ds := r.takeWhile isDigit
  decide (ds ≠ []) &&
    match r.dropWhile isDigit with
    | c :: c2 :: _ => sepQ c && isSpace c2
    | _ => false

/-- The capture regex `^(\s*)(\d+)[\.|\)]\s+(.+)` of
`_markdown_to_odt_content`: returns the digit run (group 2) and the
remainder after the greedy whitespace run (group 3, which must be
nonempty). -/
def matchOrderedFull (l : List Char) : Option (List Char × List Char) :=
  let r := lstrip l
  let ds := r.takeWhile isDigit
  if ds = [] then none
  else
    match r.dropWhile isDigit with
    | c :: rest =>
      if sepQ c then
        match rest with
        | c2 :: _ =>
          if isSpace c2 then
            let tail := rest.dropWhile isSpace
            if tail = [] then none else some (ds, tail)
          else none
        | [] => none
      else none
    | [] => none

/-- The guard regex `^\d+[\.|\)]\s+` used by `parse_lines` on the already
left-stripped line. -/
def matchOrderedCondNoWs (s : List Char) : Bool :=
  decide (s.takeWhile isDigit ≠ []) &&
    match s.dropWhile isDigit with
    | c :: c2 :: _ => sepQ c && isSpace c2
    | _ => false

/-- The capture of `parse_lines`: group 1 of `^(\d+)[\.|\)]\s+` together
with `re.sub(r"^\d+[\.|\)]\s+", "", stripped)` (the remainder after the
greedy whitespace run, possibly empty). -/
def matchOrderedFixed (s : List Char) : Option (List Char × List Char) :=
  let ds := s.takeWhile isDigit
  if ds = [] then none
  else
    match s.dropWhile isDigit with
    | c :: rest =>
      if sepQ c then
        match rest with
        | c2 :: _ => if isSpace c2 then some (ds, rest.dropWhile isSpace) else none
        | [] => none
      else none
    | [] => none

/-- Count of leading `'#'` characters:
`len(line) - len(line.lstrip('#'))`. -/
def hashCount (l : List Char) : Nat := (l.takeWhile (fun c => c = '#')).length

/-- One classified input line.  `skip` records the (unreachable for
stripped lines) case where the ordered-item guard regex matches but the
capture regex does not, in which case the Python loop emits no content for
the line. -/
inductive Block where
  | blank
  | heading (level : Nat) (text : List Char)
  | ulItem (text : List Char)
  | olItem (ordinal : List Char) (text : List Char)
  | para (text : List Char)
  | skip
deriving DecidableEq, Repr

/-- The branch dispatch of `_markdown_to_odt_content` (the flow track's
line classification): the loop first does `line = line.rstrip()`, then
tests, in order: empty line; `line.startswith('#')` (no left-strip);
`line.lstrip().startswith(('- ', '* ', '+ '))`;
`re.match(r'^\s*\d+[\.|\)]\s+', line)`; else paragraph (payload kept as
the right-stripped line). -/
def classifyFlow (raw : List Char) : Block :=
  let line := rstrip raw
  match line with
  | [] => .blank
  | c :: _ =>
    if c = '#' then
      let level := hashCount line
      .heading level (strip (line.drop level))
    else if uMarkerQ (lstrip line) then
      .ulItem (strip ((lstrip line).drop 2))
    else if matchOrderedCond line then
      match matchOrderedFull line with
      | some (n, t) => .olItem n t
      | none => .skip
    else .para line

/-- The branch dispatch of `parse_lines` (the fixed-layout track's line
classification): the loop does `line = raw.rstrip()`, then tests, in
order: empty line; `stripped = line.lstrip(); stripped.startswith('#')`;
`stripped.startswith(('- ', '* ', '+ '))`;
`re.match(r"^\d+[\.|\)]\s+", stripped)`; else paragraph (payload
`line.strip()`). -/
def classifyFixed (raw : List Char) : Block :=
  let line := rstrip raw
  match line with
  | [] => .blank
  | _ :: _ =>
    let stripped := lstrip line
    match stripped with
    | [] => .para (strip line)
    | c :: _ =>
      if c = '#' then
        let level := hashCount stripped
        .heading level (strip (stripped.drop level))
      else if uMarkerQ stripped then
        .ulItem (strip (stripped.drop 2))
      else if matchOrderedCondNoWs stripped then
        match matchOrderedFixed stripped with
        | some (n, t) => .olItem n t
        | none => .skip
      else .para (strip line)

/-- One `str.replace(old, new)` pass for a single-character pattern. -/
def replaceChar (c : Char) (rep : List Char) : List Char → List Char
  | [] => []
  | x :: xs => (if x = c then rep else [x]) ++ replaceChar c rep xs

/-- The apostrophe character (escaped by `_escape_xml`). -/
def aposChar : Char := Char.ofNat 39

/-- The double-quote character (escaped by `_escape_xml`). -/
def quoteChar : Char := Char.ofNat 34

/-- `_escape_xml`: sequentially replaces `&`, `<`, `>`, `"`, and the
apostrophe (in that order, ampersands first) by the five XML entities. -/
def escapeXml (l : List Char) : List Char :=
  replaceChar aposChar "&apos;".data
    (replaceChar quoteChar "&quot;".data
      (replaceChar '>' "&gt;".data
        (replaceChar '<' "&lt;".data
          (replaceChar '&' "&amp;".data l))))

/-- The empty-paragraph line emitted for a blank input line. -/
def pbreakLine : List Char := "<text:p text:style-name=\"P1\"/>".data

/-- The bullet-list container opening tag (style `L1`). -/
def openUList : List Char := "<text:list text:style-name=\"L1\">".data

/-- The numbered-list container opening tag (style `L2`). -/
def openOList : List Char := "<text:list text:style-name=\"L2\">".data

/-- The list-container closing tag. -/
def closeList : List Char := "</text:list>".data

/-- Heading style name: level 1 and level 2 have their own styles, all
deeper levels share the level-3 style. -/
def headingStyleName (level : Nat) : List Char :=
  if level = 1 then "Heading_20_1".data
  else if level = 2 then "Heading_20_2".data
  else "Heading_20_3".data

/-- The heading element emitted for a heading block; `esc` is the already
escaped payload. -/
def headingLine (level : Nat) (esc : List Char) : List Char :=
  "<text:h text:style-name=\"".data ++ headingStyleName level ++
    "\" text:outline-level=\"".data ++ Nat.toDigits 10 level ++
    "\">".data ++ esc ++ "</text:h>".data

/-- The list-item element emitted for an unordered item (a bullet and the
escaped payload). -/
def ulItemLine (esc : List Char) : List Char :=
  "<text:list-item><text:p text:style-name=\"P2\">• ".data ++ esc ++
    "</text:p></text:list-item>".data

/-- The list-item element emitted for an ordered item: the captured
ordinal, then `". "`, then the escaped payload. -/
def olItemLine (ordinal : List Char) (esc : List Char) : List Char :=
  "<text:list-item><text:p text:style-name=\"P2\">".data ++ ordinal ++
    ". ".data ++ esc ++ "</text:p></text:list-item>".data

/-- The paragraph element emitted for a plain paragraph line. -/
def paraLine (esc : List Char) : List Char :=
  "<text:p text:style-name=\"P1\">".data ++ esc ++ "</text:p>".data

/-- The loop state of `_markdown_to_odt_content`: the `in_list` flag and
the (output-irrelevant) `list_level` counter. -/
structure OdtState where
  inList : Bool
  listLevel : Nat
deriving DecidableEq, Repr

/-- One iteration of the `_markdown_to_odt_content` loop: given the state
and one raw line, returns the new state and the content lines appended for
that line.  Faithful to the source: a blank or heading line resets the
flags without emitting a close tag; a list line opens a container only
when `in_list` is false (style chosen by the category seen at opening
time); a paragraph line emits the close tag when a list is open. -/
def odtStep (st : OdtState) (raw : List Char) : OdtState × List (List Char) :=
  match classifyFlow raw with
  | .blank =>
    (if st.inList then ⟨false, 0⟩ else st, [pbreakLine])
  | .heading level t =>
    (if st.inList then ⟨false, 0⟩ else st, [headingLine level (escapeXml t)])
  | .ulItem t =>
    if st.inList then (st, [ulItemLine (escapeXml t)])
    else (⟨true, 1⟩, [openUList, ulItemLine (escapeXml t)])
  | .olItem n t =>
    if st.inList then (st, [olItemLine n (escapeXml t)])
    else (⟨true, 1⟩, [openOList, olItemLine n (escapeXml t)])
  | .skip =>
    if st.inList then (st, []) else (⟨true, 1⟩, [openOList])
  | .para t =>
    if st.inList then (⟨false, 0⟩, [closeList, paraLine (escapeXml t)])
    else (st, [paraLine (escapeXml t)])

/-- The content lines produced by `_markdown_to_odt_content`: the input is
stripped, split on newlines, folded through `odtStep` from the initial
state, and a still-open list is closed at the end.  (The Python function
returns these lines joined with `'\n'`.) -/
def odtContentLines (text : List Char) : List (List Char) :=
  let fin := (splitOnNl (strip text)).foldl
    (fun acc raw =>
      let s := odtStep acc.1 raw
      (s.1, acc.2 ++ s.2))
    ((⟨false, 0⟩ : OdtState), ([] : List (List Char)))
  fin.2 ++ (if fin.1.inList then [closeList] else [])

/-- Number of list-container open events in an emitted line sequence. -/
def countListOpens (lines : List (List Char)) : Nat :=
  lines.countP (fun l => decide (l = openUList ∨ l = openOList))

/-- Number of list-container close events in an emitted line sequence. -/
def countListCloses (lines : List (List Char)) : Nat :=
  lines.countP (fun l => decide (l = closeList))

/-- The per-line rendering attributes of the fixed-layout track
(`fontsize`, `weight`, `indent`, `line_height_multiplier`). -/
structure PStyle where
  fontsize : ℚ
  bold : Bool
  indent : ℚ
  mult : ℚ
deriving DecidableEq, Repr

/-- The display text and style that `parse_lines` appends for one
classified line (`none` when the ordered guard matched but the capture
failed, in which case `parse_lines` appends nothing). -/
def styledOf : Block → Option (List Char × PStyle)
  | .blank => some ([], ⟨12, false, 0, 1/2⟩)
  | .heading level t =>
    if level = 1 then some (t, ⟨18, true, 0, 2⟩)
    else if level = 2 then some (t, ⟨16, true, 0, 9/5⟩)
    else some (t, ⟨14, true, 0, 8/5⟩)
  | .ulItem t => some ('•' :: ' ' :: t, ⟨12, false, 3/100, 6/5⟩)
  | .olItem n t => some (n ++ '.' :: ' ' :: t, ⟨12, false, 3/100, 6/5⟩)
  | .para t => some (t, ⟨12, false, 0, 13/10⟩)
  | .skip => none

/-- `parse_lines`: strip the text, split on newlines, classify each line
and attach its display text and style. -/
def parseLines (text : List Char) : List (List Char × PStyle) :=
  (splitOnNl (strip text)).filterMap (fun raw => styledOf (classifyFixed raw))

/-- The accumulator of the `wrap_text_simple` loop. -/
structure WrapSt where
  lines : List (List Char)
  current : List (List Char)
  curLen : ℤ
deriving DecidableEq, Repr

/-- One iteration of the `wrap_text_simple` loop over one word. -/
def wrapStep (maxC : ℤ) (st : WrapSt) (w : List Char) : WrapSt :=
  let wl : ℤ := w.length
  let sp : ℤ := if st.current = [] then 0 else 1
  if st.curLen + sp + wl ≤ maxC then
    ⟨st.lines, st.current ++ [w], st.curLen + sp + wl⟩
  else
    ⟨st.lines ++ (if st.current = [] then [] else [joinSp st.current]), [w], wl⟩

/-- The line list built by the `wrap_text_simple` loop (the `lines`
accumulator plus the final flush of a non-empty `current_line`). -/
def wrapRawLines (text : List Char) (maxC : ℤ) : List (List Char) :=
  let s := (words text).foldl (wrapStep maxC) ⟨[], [], 0⟩
  s.lines ++ (if s.current = [] then [] else [joinSp s.current])

/-- `wrap_text_simple(text, max_chars_per_line)`: greedy word wrap.  The
budget is an integer as in Python (it can be zero or negative). -/
def wrapTextSimple (text : List Char) (maxC : ℤ) : List (List Char) :=
  if strip text = [] then [[]]
  else if wrapRawLines text maxC = [] then [[]]
  else wrapRawLines text maxC

/-- A4 page width in inches. -/
def pageW : ℚ := 827/100

/-- A4 page height in inches. -/
def pageH : ℚ := 1169/100

/-- Left margin as a fraction of the page width (1 inch). -/
def leftMargin : ℚ := 1 / pageW

/-- Right margin as a fraction of the page width (1 inch). -/
def rightMargin : ℚ := 1 / pageW

/-- Top margin as a fraction of the page height (1 inch). -/
def topMargin : ℚ := 1 / pageH

/-- Bottom margin as a fraction of the page height (1 inch). -/
def bottomMargin : ℚ := 1 / pageH

/-- Base line height (0.2 inch) as a fraction of the page height. -/
def baseLineHeight : ℚ := (2/10) / pageH

/-- `available_width = 1.0 - left_margin - right_margin`. -/
def availableWidth : ℚ := 1 - leftMargin - rightMargin

/-- `base_max_chars = int(available_width * 120)`. -/
def baseMaxChars : ℤ := ⌊availableWidth * 120⌋

/-- The per-block character budget:
`int(base_max_chars * (12/fontsize) * ((aw - indent)/aw))`. -/
def maxCharsFor (st : PStyle) : ℤ :=
  ⌊(baseMaxChars : ℚ) * (12 / st.fontsize) *
    ((availableWidth - st.indent) / availableWidth)⌋

/-- Mark all fragments of one block except the last as continuations
(their line-height multiplier forced to 1). -/
def markCont (style : PStyle) : List (List Char) → List (List Char × PStyle)
  | [] => []
  | [x] => [(x, style)]
  | x :: rest => (x, { style with mult := 1 }) :: markCont style rest

/-- The wrapping pass of `create_assignment_pdf`: empty display text is
kept as a single empty fragment with its style; other blocks are wrapped
under their derived budget and continuation-marked. -/
def wrapAll (parsed : List (List Char × PStyle)) : List (List Char × PStyle) :=
  parsed.foldr
    (fun p acc =>
      (if p.1 = [] then [p]
       else markCont p.2 (wrapTextSimple p.1 (maxCharsFor p.2))) ++ acc)
    []

/-- The height of one wrapped fragment:
`base_line_height * multiplier * (fontsize / 12)`. -/
def lineHeightOf (baseLH : ℚ) (st : PStyle) : ℚ :=
  baseLH * st.mult * (st.fontsize / 12)

/-- The accumulator of the pagination loop of `create_assignment_pdf`. -/
structure PgState where
  pages : List (List (List Char × PStyle))
  current : List (List Char × PStyle)
  y : ℚ
deriving DecidableEq, Repr

/-- One iteration of the pagination loop: if the fragment would cross the
bottom margin, flush the current page when it is non-empty (resetting the
cursor); then append the fragment and move the cursor down. -/
def pgStep (baseLH bottom topY : ℚ) (st : PgState) (f : List Char × PStyle) :
    PgState :=
  let h := lineHeightOf baseLH f.2
  let st' :=
    if st.y - h < bottom then
      if st.current = [] then st
      else ⟨st.pages ++ [st.current], [], topY⟩
    else st
  ⟨st'.pages, st'.current ++ [f], st'.y - h⟩

/-- The pagination loop: fold the fragments through `pgStep` starting at
the top of an empty page; the final page is emitted only when non-empty. -/
def paginate (baseLH top bottom : ℚ) (frags : List (List Char × PStyle)) :
    List (List (List Char × PStyle)) :=
  let s := frags.foldl (pgStep baseLH bottom (1 - top)) ⟨[], [], 1 - top⟩
  s.pages ++ (if s.current = [] then [] else [s.current])

/-- The content-page pipeline of `create_assignment_pdf`:
classify + style, wrap, paginate (the cover page is produced separately
and is not among these pages). -/
def pdfContentPages (text : List Char) : List (List (List Char × PStyle)) :=
  paginate baseLineHeight topMargin bottomMargin (wrapAll (parseLines text))

theorem pg_foldl_flatten (baseLH bottom topY : ℚ) :
    ∀ (frags : List (List Char × PStyle)) (st : PgState),
      (frags.foldl (pgStep baseLH bottom topY) st).pages.flatten ++
        (frags.foldl (pgStep baseLH bottom topY) st).current =
      st.pages.flatten ++ st.current ++ frags := by
  intro frags
  induction frags with
  | nil => intro st; simp
  | cons f rest ih =>
    intro st
    rw [List.foldl_cons, ih]
    simp only [pgStep]
    by_cases h1 : st.y - lineHeightOf baseLH f.2 < bottom
    · by_cases h2 : st.current = []
      · simp [h1, h2]
      · simp [h1, h2]
    · simp [h1]

/-- C5: for every fragment sequence (and any layout parameters),
concatenating the fragments of all pages produced by the pagination loop,
in page order then in-page order, yields exactly the input sequence:
pagination never drops, duplicates, or reorders a fragment. -/
theorem C5_paginate_preserves_fragments
    (baseLH top bottom : ℚ) (frags : List (List Char × PStyle)) :
    (paginate baseLH top bottom frags).flatten = frags := by
  unfold paginate
  have h := pg_foldl_flatten baseLH bottom (1 - top) frags ⟨[], [], 1 - top⟩
  dsimp only
  split
  · rename_i hcur
    rw [List.append_nil]
    rw [hcur, List.append_nil] at h
    simpa using h
  · rw [List.flatten_append]
    simpa using h

/-- C1: the claim that list-container open and close events are always
balanced fails on the code: for the input `"- item\n\npara"` (a blank
line immediately after a list item), `_markdown_to_odt_content` emits one
open event and zero close events, because the blank-line branch resets
`in_list` without emitting `</text:list>` and every later close is
guarded by that flag. -/
theorem C1_blank_after_list_unbalanced :
    countListOpens (odtContentLines "- item\n\npara".data) = 1 ∧
    countListCloses (odtContentLines "- item\n\npara".data) = 0 := by
  constructor
  · rfl
  · rfl

/-- C4: on the end-to-end example input, both tracks classify the lines
into exactly the claimed sequence of blocks; but the flow emitter, while
opening exactly one list container for the two items, never closes it:
the close claimed to precede the trailing blank's paragraph-break element
is not emitted (the blank branch only resets the `in_list` flag), so the
output ends with zero close events. -/
theorem C4_end_to_end_example :
    (splitOnNl (strip "# Title\n\nPara one.\n- item a\n- item b\n\nPara two.".data)).map
        classifyFixed =
      [.heading 1 "Title".data, .blank, .para "Para one.".data,
       .ulItem "item a".data, .ulItem "item b".data, .blank,
       .para "Para two.".data] ∧
    (splitOnNl (strip "# Title\n\nPara one.\n- item a\n- item b\n\nPara two.".data)).map
        classifyFlow =
      [.heading 1 "Title".data, .blank, .para "Para one.".data,
       .ulItem "item a".data, .ulItem "item b".data, .blank,
       .para "Para two.".data] ∧
    odtContentLines "# Title\n\nPara one.\n- item a\n- item b\n\nPara two.".data =
      [headingLine 1 "Title".data, pbreakLine,
       paraLine "Para one.".data, openUList,
       ulItemLine "item a".data, ulItemLine "item b".data,
       pbreakLine, paraLine "Para two.".data] ∧
    countListOpens
        (odtContentLines "# Title\n\nPara one.\n- item a\n- item b\n\nPara two.".data) = 1 ∧
    countListCloses
        (odtContentLines "# Title\n\nPara one.\n- item a\n- item b\n\nPara two.".data) = 0 := by
  refine ⟨rfl, rfl, rfl, rfl, rfl⟩

/-- Total character count of a fragment list. -/
def sumLen (ls : List (List Char)) : Nat := (ls.map List.length).sum

theorem wordsF_ne_nil : ∀ (fuel : Nat) (l : List Char),
    ∀ w ∈ wordsF fuel l, w ≠ [] := by
  intro fuel
  induction fuel with
  | zero => intro l w hw; simp [wordsF] at hw
  | succ n ih =>
    intro l w hw
    rw [wordsF] at hw
    cases hl : lstrip l with
    | nil => rw [hl] at hw; simp at hw
    | cons c rest =>
      rw [hl] at hw
      rw [List.mem_cons] at hw
      rcases hw with h | h
      · simp [h]
      · exact ih _ w h

theorem words_ne_nil {l : List Char} : ∀ w ∈ words l, w ≠ [] :=
  wordsF_ne_nil l.length l

theorem lstrip_eq_nil_iff {l : List Char} :
    lstrip l = [] ↔ ∀ c ∈ l, isSpace c := by
  unfold lstrip
  exact List.dropWhile_eq_nil_iff

theorem mem_of_mem_dropWhile {α : Type} {p : α → Bool} {l : List α} {a : α}
    (h : a ∈ l.dropWhile p) : a ∈ l := by
  induction l with
  | nil => simpa using h
  | cons x xs ih =>
    rw [List.dropWhile_cons] at h
    split at h
    · exact List.mem_cons_of_mem x (ih h)
    · exact h

theorem prop_of_mem_takeWhile {α : Type} {p : α → Bool} {l : List α} {a : α}
    (h : a ∈ l.takeWhile p) : p a = true := by
  induction l with
  | nil => simpa using h
  | cons x xs ih =>
    rw [List.takeWhile_cons] at h
    split at h
    · rcases List.mem_cons.mp h with h1 | h1
      · subst h1; assumption
      · exact ih h1
    · simp at h

theorem mem_rstrip {l : List Char} {c : Char} (h : c ∈ rstrip l) : c ∈ l := by
  unfold rstrip at h
  rw [List.mem_reverse] at h
  exact List.mem_reverse.mp (mem_of_mem_dropWhile h)

theorem strip_eq_nil_iff {l : List Char} :
    strip l = [] ↔ ∀ c ∈ l, isSpace c := by
  unfold strip
  rw [lstrip_eq_nil_iff]
  constructor
  · intro h c hc
    have hsplit := List.takeWhile_append_dropWhile (p := isSpace) (l := l.reverse)
    have hc' : c ∈ l.reverse := List.mem_reverse.mpr hc
    rw [← hsplit] at hc'
    rcases List.mem_append.mp hc' with h1 | h1
    · exact prop_of_mem_takeWhile h1
    · exact h c (by unfold rstrip; simpa using h1)
  · intro h c hc
    exact h c (mem_rstrip hc)

theorem words_eq_nil_iff {l : List Char} :
    words l = [] ↔ lstrip l = [] := by
  unfold words
  cases l with
  | nil => simp [wordsF, lstrip]
  | cons x xs =>
    rw [List.length_cons, wordsF]
    cases hl : lstrip (x :: xs) with
    | nil => simp
    | cons c rest => simp

theorem lstrip_rstrip_nil {l : List Char} (h : lstrip l = []) :
    lstrip (rstrip l) = [] := by
  rw [lstrip_eq_nil_iff] at h ⊢
  intro c hc
  exact h c (mem_rstrip hc)

theorem words_strip_nil {l : List Char} :
    words l = [] ↔ strip l = [] := by
  rw [words_eq_nil_iff, lstrip_eq_nil_iff, strip_eq_nil_iff]

theorem joinSp_cons (w : List Char) (ws : List (List Char)) (h : ws ≠ []) :
    joinSp (w :: ws) = w ++ ' ' :: joinSp ws := by
  cases ws with
  | nil => exact absurd rfl h
  | cons x xs => rfl

theorem joinSp_append_singleton (ws : List (List Char)) (w : List Char) :
    joinSp (ws ++ [w]) = if ws = [] then w else joinSp ws ++ ' ' :: w := by
  induction ws with
  | nil => simp [joinSp]
  | cons x xs ih =>
    rw [List.cons_append, joinSp_cons x (xs ++ [w]) (by simp), ih]
    by_cases hxs : xs = []
    · simp [hxs, joinSp]
    · simp only [hxs, if_false, List.cons_ne_nil, if_neg]
      rw [joinSp_cons x xs hxs]
      simp

/-- The bookkeeping measure of the wrap loop: committed characters plus
one per committed or pending fragment. -/
def wrapMeasure (st : WrapSt) : Nat :=
  sumLen st.lines + st.lines.length +
    (if st.current = [] then 0 else (joinSp st.current).length + 1)

theorem wrapStep_measure (maxC : ℤ) (st : WrapSt) (w : List Char) :
    wrapMeasure (wrapStep maxC st w) = wrapMeasure st + w.length + 1 := by
  unfold wrapStep wrapMeasure
  by_cases hfit : st.curLen + (if st.current = [] then 0 else 1) + (w.length : ℤ) ≤ maxC
  · rw [if_pos hfit]
    by_cases hcur : st.current = []
    · simp [hcur, joinSp]
      omega
    · simp [hcur, joinSp_append_singleton, List.length_append]
      omega
  · rw [if_neg hfit]
    by_cases hcur : st.current = []
    · simp [hcur, joinSp]
      omega
    · simp [hcur, sumLen, joinSp, List.length_append]
      omega

theorem wrap_foldl_measure (maxC : ℤ) :
    ∀ (ws : List (List Char)) (st : WrapSt),
      wrapMeasure (ws.foldl (wrapStep maxC) st) =
        wrapMeasure st + (ws.map (fun w => w.length + 1)).sum := by
  intro ws
  induction ws with
  | nil => intro st; simp
  | cons w rest ih =>
    intro st
    rw [List.foldl_cons, ih, wrapStep_measure]
    simp
    omega

theorem joinSp_length_sum :
    ∀ (ws : List (List Char)), ws ≠ [] →
      (joinSp ws).length + 1 = (ws.map (fun w => w.length + 1)).sum := by
  intro ws
  induction ws with
  | nil => intro h; exact absurd rfl h
  | cons w rest ih =>
    intro _
    by_cases hr : rest = []
    · simp [hr, joinSp]
    · rw [joinSp_cons w rest hr]
      have := ih hr
      simp only [List.map_cons, List.sum_cons, List.length_append, List.length_cons]
      omega

/-- A produced fragment is good when it fits the budget, or is a single
source word that alone exceeds the budget (placed unsplit on its own
line). -/
def goodFrag (allW : List (List Char)) (maxC : ℤ) (f : List Char) : Prop :=
  (f.length : ℤ) ≤ maxC ∨ ∃ w ∈ allW, f = w ∧ maxC < (w.length : ℤ)

/-- Loop invariant of `wrap_text_simple`. -/
structure WrapInv (allW : List (List Char)) (maxC : ℤ) (st : WrapSt) : Prop where
  lines_good : ∀ f ∈ st.lines, goodFrag allW maxC f
  len_eq : st.current ≠ [] → st.curLen = ((joinSp st.current).length : ℤ)
  len_z : st.current = [] → st.curLen = 0
  multi_le : 2 ≤ st.current.length → st.curLen ≤ maxC
  memW : ∀ w ∈ st.current, w ∈ allW

theorem flush_good {allW : List (List Char)} {maxC : ℤ} {st : WrapSt}
    (inv : WrapInv allW maxC st) :
    ∀ f ∈ (if st.current = [] then ([] : List (List Char))
           else [joinSp st.current]), goodFrag allW maxC f := by
  intro f hf
  by_cases hcur : st.current = []
  · simp [hcur] at hf
  · rw [if_neg hcur, List.mem_singleton] at hf
    subst hf
    match hc : st.current with
    | [] => exact absurd hc hcur
    | [u] =>
      by_cases hu : ((joinSp [u]).length : ℤ) ≤ maxC
      · exact Or.inl hu
      · refine Or.inr ⟨u, inv.memW u (by rw [hc]; simp), rfl, ?_⟩
        simp only [joinSp] at hu
        omega
    | u :: v :: rest =>
      left
      have h2 : 2 ≤ st.current.length := by
        rw [hc, List.length_cons, List.length_cons]; omega
      have := inv.multi_le h2
      have := inv.len_eq (by rw [hc]; simp)
      rw [hc] at *
      omega

theorem wrapStep_inv {allW : List (List Char)} {maxC : ℤ} {st : WrapSt}
    {w : List Char} (inv : WrapInv allW maxC st) (hw : w ∈ allW) :
    WrapInv allW maxC (wrapStep maxC st w) := by
  unfold wrapStep
  by_cases hfit : st.curLen + (if st.current = [] then 0 else 1) + (w.length : ℤ) ≤ maxC
  · rw [if_pos hfit]
    refine ⟨inv.lines_good, ?_, ?_, ?_, ?_⟩
    · intro _
      by_cases hcur : st.current = []
      · simp [hcur, joinSp, inv.len_z hcur]
      · have := inv.len_eq hcur
        simp only [joinSp_append_singleton, hcur, if_false, List.length_append,
          List.length_cons]
        push_cast
        omega
    · intro h; simp at h
    · intro _; exact hfit
    · intro u hu
      rcases List.mem_append.mp hu with h1 | h1
      · exact inv.memW u h1
      · rw [List.mem_singleton] at h1; subst h1; exact hw
  · rw [if_neg hfit]
    refine ⟨?_, ?_, ?_, ?_, ?_⟩
    · intro f hf
      rcases List.mem_append.mp hf with h1 | h1
      · exact inv.lines_good f h1
      · exact flush_good inv f h1
    · intro _; simp [joinSp]
    · intro h; simp at h
    · intro h; simp at h
    · intro u hu; rw [List.mem_singleton] at hu; subst hu; exact hw

theorem wrap_foldl_inv {allW : List (List Char)} {maxC : ℤ} :
    ∀ (ws : List (List Char)) (st : WrapSt), (∀ w ∈ ws, w ∈ allW) →
      WrapInv allW maxC st →
      WrapInv allW maxC (ws.foldl (wrapStep maxC) st) := by
  intro ws
  induction ws with
  | nil => intro st _ inv; exact inv
  | cons w rest ih =>
    intro st hmem inv
    rw [List.foldl_cons]
    exact ih _ (fun u hu => hmem u (List.mem_cons_of_mem w hu))
      (wrapStep_inv inv (hmem w (List.mem_cons_self w rest)))

theorem wrapRawLines_measure (text : List Char) (maxC : ℤ) :
    sumLen (wrapRawLines text maxC) + (wrapRawLines text maxC).length =
      ((words text).map (fun w => w.length + 1)).sum := by
  unfold wrapRawLines
  dsimp only
  have hm := wrap_foldl_measure maxC (words text) ⟨[], [], 0⟩
  have h0 : wrapMeasure ⟨[], [], 0⟩ = 0 := by simp [wrapMeasure, sumLen]
  rw [h0, Nat.zero_add] at hm
  rw [← hm]
  unfold wrapMeasure
  by_cases hc : ((words text).foldl (wrapStep maxC) ⟨[], [], 0⟩).current = []
  · simp [hc, sumLen]
  · simp [hc, sumLen]
    omega

theorem wrapInv_init (allW : List (List Char)) (maxC : ℤ) :
    WrapInv allW maxC ⟨[], [], 0⟩ := by
  refine ⟨?_, ?_, ?_, ?_, ?_⟩
  · intro f hf; simp at hf
  · intro h; simp at h
  · intro _; rfl
  · intro h; simp at h
  · intro w hw; simp at hw

theorem wrapRawLines_good (text : List Char) (maxC : ℤ) :
    ∀ f ∈ wrapRawLines text maxC, goodFrag (words text) maxC f := by
  unfold wrapRawLines
  dsimp only
  have inv := wrap_foldl_inv (words text) ⟨[], [], 0⟩ (fun _ hw => hw)
    (wrapInv_init (words text) maxC)
  intro f hf
  rcases List.mem_append.mp hf with h1 | h1
  · exact inv.lines_good f h1
  · exact flush_good inv f h1

theorem wrapRawLines_ne_nil (text : List Char) (maxC : ℤ)
    (h : words text ≠ []) : wrapRawLines text maxC ≠ [] := by
  intro h0
  have hm := wrapRawLines_measure text maxC
  rw [h0] at hm
  simp [sumLen] at hm
  cases hws : words text with
  | nil => exact h hws
  | cons w rest =>
    rw [hws] at hm
    simp at hm
    omega

/-- C6 could not hold as stated (see the counterexample: collapsed runs
of whitespace make `len(text)` too big a lower bound); amended: for every
text and every budget `maxC ≥ 1`, the fragment lengths plus one separator
per fragment boundary (equivalently, fragment count) add up to exactly
the length of the whitespace-normalized text (`' '.join(text.split())`)
plus one; and no fragment exceeds `maxC` characters except a fragment
that is a single source word longer than `maxC`, placed alone without
being split mid-word. -/
theorem C6_wrap_budget_amended (text : List Char) (maxC : ℤ) (h1 : 1 ≤ maxC) :
    (sumLen (wrapTextSimple text maxC) + (wrapTextSimple text maxC).length =
      (joinSp (words text)).length + 1) ∧
    (∀ f ∈ wrapTextSimple text maxC,
      (f.length : ℤ) ≤ maxC ∨ ∃ w ∈ words text, f = w ∧ maxC < (w.length : ℤ)) := by
  unfold wrapTextSimple
  by_cases hs : strip text = []
  · rw [if_pos hs]
    have hw : words text = [] := words_strip_nil.mpr hs
    constructor
    · simp [sumLen, hw, joinSp]
    · intro f hf
      rw [List.mem_singleton] at hf
      subst hf
      left
      simp
      omega
  · rw [if_neg hs]
    have hwne : words text ≠ [] := fun hc => hs (words_strip_nil.mp hc)
    rw [if_neg (wrapRawLines_ne_nil text maxC hwne)]
    constructor
    · rw [wrapRawLines_measure text maxC]
      exact (joinSp_length_sum (words text) hwne).symm
    · exact wrapRawLines_good text maxC

/-- C6, counterexample to the claim as stated: for `text = "  a"` and
budget 5 the wrapper returns the single fragment `"a"`; its total length
plus a separator for the single joined word is 2, strictly less than
`len(text) = 3` (the leading whitespace was collapsed). -/
theorem C6_counterexample :
    wrapTextSimple "  a".data 5 = [['a']] ∧
    sumLen (wrapTextSimple "  a".data 5) + (words "  a".data).length <
      ("  a".data).length := by
  constructor
  · rfl
  · decide

/-- C6 witness instance. -/
theorem C6_wrap_budget_amended_witness :
    (1 : ℤ) ≤ 7 ∧
    ((sumLen (wrapTextSimple "hello world it".data 7) +
        (wrapTextSimple "hello world it".data 7).length =
        (joinSp (words "hello world it".data)).length + 1) ∧
     (∀ f ∈ wrapTextSimple "hello world it".data 7,
        (f.length : ℤ) ≤ 7 ∨
          ∃ w ∈ words "hello world it".data, f = w ∧ 7 < (w.length : ℤ))) :=
  ⟨by norm_num, C6_wrap_budget_amended "hello world it".data 7 (by norm_num)⟩

theorem wrap0_foldl (maxC : ℤ) (hm : maxC < 1) :
    ∀ (ws : List (List Char)) (st : WrapSt), (∀ w ∈ ws, w ≠ []) →
      0 ≤ st.curLen →
      (ws.foldl (wrapStep maxC) st).lines ++
        (if (ws.foldl (wrapStep maxC) st).current = [] then []
         else [joinSp (ws.foldl (wrapStep maxC) st).current]) =
      st.lines ++
        (if st.current = [] then [] else [joinSp st.current]) ++ ws := by
  intro ws
  induction ws with
  | nil => intro st _ _; simp
  | cons w rest ih =>
    intro st hne h0
    rw [List.foldl_cons]
    have hwne : w ≠ [] := hne w (List.mem_cons_self w rest)
    have hwl : 1 ≤ (w.length : ℤ) := by
      have : w.length ≠ 0 := fun hc => hwne (List.length_eq_zero.mp hc)
      omega
    have hnofit : ¬ (st.curLen + (if st.current = [] then 0 else 1) +
        (w.length : ℤ) ≤ maxC) := by
      by_cases hcur : st.current = [] <;> simp [hcur] <;> omega
    have hstep : wrapStep maxC st w =
        ⟨st.lines ++ (if st.current = [] then [] else [joinSp st.current]),
          [w], (w.length : ℤ)⟩ := by
      unfold wrapStep
      rw [if_neg hnofit]
    rw [hstep, ih _ (fun u hu => hne u (List.mem_cons_of_mem w hu)) (by simp)]
    simp [joinSp]

/-- C7 fails on the code (see the counterexample): no error is signaled
anywhere for a degenerate budget.  Amended: for every text and every
budget `maxC < 1`, `wrap_text_simple` silently proceeds and returns one
fragment per word (each word alone on its own line), or a single empty
fragment when the text has no words. -/
theorem C7_degenerate_budget_amended (text : List Char) (maxC : ℤ)
    (hm : maxC < 1) :
    wrapTextSimple text maxC =
      if strip text = [] then [[]] else words text := by
  unfold wrapTextSimple
  by_cases hs : strip text = []
  · rw [if_pos hs, if_pos hs]
  · rw [if_neg hs, if_neg hs]
    have hwne : words text ≠ [] := fun hc => hs (words_strip_nil.mp hc)
    have hraw : wrapRawLines text maxC = words text := by
      unfold wrapRawLines
      dsimp only
      have := wrap0_foldl maxC hm (words text) ⟨[], [], 0⟩
        (fun w hw => words_ne_nil w hw) (by simp)
      simpa using this
    rw [if_neg (by rw [hraw]; exact hwne), hraw]

/-- C7, counterexample to the claim as stated: with a budget of 0 (< 1)
the conversion does not raise or return an error; it produces wrapped
lines, one word per fragment. -/
theorem C7_counterexample :
    wrapTextSimple "a b".data 0 = [['a'], ['b']] := by
  rfl

/-- C7 witness instance. -/
theorem C7_degenerate_budget_amended_witness :
    (0 : ℤ) < 1 ∧
    wrapTextSimple "a b".data 0 =
      (if strip "a b".data = [] then [[]] else words "a b".data) :=
  ⟨by norm_num, C7_degenerate_budget_amended "a b".data 0 (by norm_num)⟩

/-- C8, counterexample to the claim as stated: paginating an empty
fragment sequence (zero blocks) yields zero content pages, not one empty
page — the final flush is guarded by `if current_page_content:`. -/
theorem C8_counterexample :
    paginate baseLineHeight topMargin bottomMargin [] = [] ∧
    paginate baseLineHeight topMargin bottomMargin [] ≠
      [([] : List (List Char × PStyle))] := by
  constructor
  · rfl
  · intro h
    have : ([] : List (List (List Char × PStyle))) =
        [([] : List (List Char × PStyle))] := by
      rw [← h]
      rfl
    simp at this

/-- C8 amended: paginating zero wrapped fragments yields zero content
pages (not one); an empty assignment text is nevertheless accepted, not
rejected: it classifies into a single Blank block, and the full pipeline
yields exactly one content page holding that block's single empty
fragment. -/
theorem C8_empty_amended :
    paginate baseLineHeight topMargin bottomMargin [] = [] ∧
    pdfContentPages [] = [[(([] : List Char), (⟨12, false, 0, 1/2⟩ : PStyle))]] := by
  constructor
  · rfl
  · have hpw : wrapAll (parseLines []) =
        [(([] : List Char), (⟨12, false, 0, 1/2⟩ : PStyle))] := rfl
    unfold pdfContentPages
    rw [hpw]
    unfold paginate
    rw [List.foldl_cons, List.foldl_nil]
    have hlt : ¬ ((1 - topMargin) -
        lineHeightOf baseLineHeight ⟨12, false, 0, 1/2⟩ < bottomMargin) := by
      unfold lineHeightOf baseLineHeight topMargin bottomMargin pageH
      norm_num
    unfold pgStep
    dsimp only
    rw [if_neg hlt]
    simp

/-- The list-run behavior the emitter actually implements, written as a
direct recursion over classified blocks with a single boolean run flag:
a list item of either category joins the open run (opening a container,
styled after that item's category, only when no run is open — switching
categories emits neither a close nor an open); a Paragraph emits the
close tag before its element when a run is open; Blank and Heading drop
the run flag without emitting a close; end of input closes a still-open
run. -/
def runEmit : Bool → List Block → List (List Char)
  | inRun, [] => if inRun then [closeList] else []
  | inRun, b :: bs =>
    match b with
    | .blank => pbreakLine :: runEmit false bs
    | .heading level t => headingLine level (escapeXml t) :: runEmit false bs
    | .ulItem t =>
      (if inRun then [] else [openUList]) ++
        (ulItemLine (escapeXml t) :: runEmit true bs)
    | .olItem n t =>
      (if inRun then [] else [openOList]) ++
        (olItemLine n (escapeXml t) :: runEmit true bs)
    | .skip => (if inRun then [] else [openOList]) ++ runEmit true bs
    | .para t =>
      (if inRun then [closeList] else []) ++
        (paraLine (escapeXml t) :: runEmit false bs)

theorem odt_foldl_runEmit :
    ∀ (rows : List (List Char)) (st : OdtState) (acc : List (List Char)),
      (rows.foldl
          (fun acc raw =>
            let s := odtStep acc.1 raw
            (s.1, acc.2 ++ s.2)) (st, acc)).2 ++
        (if (rows.foldl
            (fun acc raw =>
              let s := odtStep acc.1 raw
              (s.1, acc.2 ++ s.2)) (st, acc)).1.inList then [closeList] else []) =
      acc ++ runEmit st.inList (rows.map classifyFlow) := by
  intro rows
  induction rows with
  | nil =>
    intro st acc
    simp [runEmit]
  | cons raw rest ih =>
    intro st acc
    rw [List.map_cons, List.foldl_cons]
    cases hcf : classifyFlow raw with
    | blank =>
      by_cases hin : st.inList
      · have : odtStep st raw = (⟨false, 0⟩, [pbreakLine]) := by
          simp [odtStep, hcf, hin]
        simp only [this]
        rw [ih ⟨false, 0⟩ (acc ++ [pbreakLine])]
        simp [runEmit]
      · have : odtStep st raw = (st, [pbreakLine]) := by
          simp [odtStep, hcf, hin]
        simp only [this]
        rw [ih st (acc ++ [pbreakLine])]
        simp [runEmit, hin]
    | heading level t =>
      by_cases hin : st.inList
      · have : odtStep st raw = (⟨false, 0⟩, [headingLine level (escapeXml t)]) := by
          simp [odtStep, hcf, hin]
        simp only [this]
        rw [ih ⟨false, 0⟩ _]
        simp [runEmit]
      · have : odtStep st raw = (st, [headingLine level (escapeXml t)]) := by
          simp [odtStep, hcf, hin]
        simp only [this]
        rw [ih st _]
        simp [runEmit, hin]
    | ulItem t =>
      by_cases hin : st.inList
      · have : odtStep st raw = (st, [ulItemLine (escapeXml t)]) := by
          simp [odtStep, hcf, hin]
        simp only [this]
        rw [ih st _]
        simp [runEmit, hin]
      · have : odtStep st raw = (⟨true, 1⟩, [openUList, ulItemLine (escapeXml t)]) := by
          simp [odtStep, hcf, hin]
        simp only [this]
        rw [ih ⟨true, 1⟩ _]
        simp [runEmit, hin]
    | olItem n t =>
      by_cases hin : st.inList
      · have : odtStep st raw = (st, [olItemLine n (escapeXml t)]) := by
          simp [odtStep, hcf, hin]
        simp only [this]
        rw [ih st _]
        simp [runEmit, hin]
      · have : odtStep st raw = (⟨true, 1⟩, [openOList, olItemLine n (escapeXml t)]) := by
          simp [odtStep, hcf, hin]
        simp only [this]
        rw [ih ⟨true, 1⟩ _]
        simp [runEmit, hin]
    | skip =>
      by_cases hin : st.inList
      · have : odtStep st raw = (st, []) := by
          simp [odtStep, hcf, hin]
        simp only [this]
        rw [ih st _]
        simp [runEmit, hin]
      · have : odtStep st raw = (⟨true, 1⟩, [openOList]) := by
          simp [odtStep, hcf, hin]
        simp only [this]
        rw [ih ⟨true, 1⟩ _]
        simp [runEmit, hin]
    | para t =>
      by_cases hin : st.inList
      · have : odtStep st raw = (⟨false, 0⟩, [closeList, paraLine (escapeXml t)]) := by
          simp [odtStep, hcf, hin]
        simp only [this]
        rw [ih ⟨false, 0⟩ _]
        simp [runEmit, hin]
      · have : odtStep st raw = (st, [paraLine (escapeXml t)]) := by
          simp [odtStep, hcf, hin]
        simp only [this]
        rw [ih st _]
        simp [runEmit, hin]

/-- C2 amended: the emitter's list-run behavior is exactly `runEmit`
from the no-run state: a category switch between consecutive list items
emits neither a close nor an open (the item joins the already-open
container); only a Paragraph block (and end of input) emits the close
tag; Blank and Heading blocks drop the run without emitting a close. -/
theorem C2_list_run_amended (text : List Char) :
    odtContentLines text =
      runEmit false ((splitOnNl (strip text)).map classifyFlow) := by
  unfold odtContentLines
  have h := odt_foldl_runEmit (splitOnNl (strip text)) ⟨false, 0⟩ []
  simpa using h

/-- C2, counterexample to the claim as stated: an ordered item directly
after an unordered item is emitted into the same still-open `L1`
container — no close event and no `L2` open event occur between them
(only the single `L1` open and the single end-of-input close exist); and
a heading directly after a list item produces no close event at all. -/
theorem C2_counterexample :
    odtContentLines "- a\n1. b".data =
      [openUList, ulItemLine "a".data, olItemLine "1".data "b".data,
       closeList] ∧
    countListOpens (odtContentLines "- a\n1. b".data) = 1 ∧
    (odtContentLines "- a\n1. b".data).countP
      (fun l => decide (l = openOList)) = 0 ∧
    odtContentLines "- c\n# H".data =
      [openUList, ulItemLine "c".data, headingLine 1 "H".data] ∧
    countListCloses (odtContentLines "- c\n# H".data) = 0 := by
  refine ⟨rfl, rfl, rfl, rfl, rfl⟩

theorem head_dropWhile_false {p : Char → Bool} {l : List Char} {c : Char}
    {cs : List Char} (h : l.dropWhile p = c :: cs) : p c = false := by
  induction l with
  | nil => simp at h
  | cons x xs ih =>
    rw [List.dropWhile_cons] at h
    split at h
    · exact ih h
    · rename_i hx
      cases h
      simpa using hx

theorem dropWhile_dropWhile (p : Char → Bool) (l : List Char) :
    (l.dropWhile p).dropWhile p = l.dropWhile p := by
  cases hd : l.dropWhile p with
  | nil => rfl
  | cons c cs =>
    rw [List.dropWhile_cons, if_neg (by simp [head_dropWhile_false hd])]

theorem rstrip_append_spaces (l : List Char) :
    rstrip l ++ (l.reverse.takeWhile isSpace).reverse = l := by
  unfold rstrip
  rw [← List.reverse_append, List.takeWhile_append_dropWhile, List.reverse_reverse]

theorem not_space_of_lstrip_cons {c : Char} {t : List Char}
    (h : lstrip (c :: t) = c :: t) : ¬ isSpace c := by
  intro hsp
  have hlen := congrArg List.length h
  rw [lstrip, List.dropWhile_cons, if_pos hsp] at hlen
  have := dropWhile_length_le isSpace t
  simp at hlen
  omega

theorem rstrip_no_space_suffix (raw : List Char) :
    ∀ pre suf, rstrip raw = pre ++ suf → suf ≠ [] →
      ¬ (∀ x ∈ suf, isSpace x) := by
  intro pre suf heq hne hall
  have hrev : (rstrip raw).reverse = raw.reverse.dropWhile isSpace := by
    simp [rstrip]
  rw [heq, List.reverse_append] at hrev
  cases hsr : suf.reverse with
  | nil => exact hne (by simpa using congrArg List.reverse hsr)
  | cons d ds =>
    have hd : d ∈ suf := by
      have : d ∈ suf.reverse := by rw [hsr]; exact List.mem_cons_self d ds
      exact List.mem_reverse.mp this
    have hdw : raw.reverse.dropWhile isSpace = d :: (ds ++ pre.reverse) := by
      rw [← hrev, hsr]
      simp
    have hfd := head_dropWhile_false hdw
    rw [hall d hd] at hfd
    simp at hfd

theorem rstrip_rstrip (raw : List Char) : rstrip (rstrip raw) = rstrip raw := by
  unfold rstrip
  rw [List.reverse_reverse, dropWhile_dropWhile]

theorem ordered_full_eq_fixed {line : List Char} (hl : lstrip line = line)
    (hlast : ∀ pre suf, line = pre ++ suf → suf ≠ [] →
      ¬ (∀ x ∈ suf, isSpace x)) :
    matchOrderedFull line = matchOrderedFixed line := by
  unfold matchOrderedFull matchOrderedFixed
  rw [hl]
  by_cases hds : line.takeWhile isDigit = []
  · simp [hds]
  · simp only [hds, if_false]
    cases hdrop : line.dropWhile isDigit with
    | nil => rfl
    | cons c1 rest1 =>
      by_cases hsep : sepQ c1
      · cases rest1 with
        | nil => rfl
        | cons c2 rest2 =>
          by_cases hsp : isSpace c2
          · have hsufx : line =
                ((line.takeWhile isDigit) ++ [c1]) ++ (c2 :: rest2) := by
              conv_lhs => rw [← List.takeWhile_append_dropWhile
                (p := isDigit) (l := line)]
              rw [hdrop]
              simp
            have hne := hlast _ _ hsufx (by simp)
            have htail2 : rest2.dropWhile isSpace ≠ [] := by
              intro h0
              apply hne
              intro x hx
              rcases List.mem_cons.mp hx with h1 | h1
              · rw [h1]; exact hsp
              · exact List.dropWhile_eq_nil_iff.mp h0 x h1
            have hforall : ¬ (∀ x ∈ rest2, isSpace x) := by
              intro hall
              exact htail2 (List.dropWhile_eq_nil_iff.mpr hall)
            simp [hsp, hsep, hforall]
          · simp [hsp]
      · simp [hsep]

/-- C3 amended: the two tracks' classifiers agree — same kind, heading
level, ordinal and payload — on every line without leading whitespace
(equivalently on every line where `lstrip` is the identity); they
disagree only on lines with leading whitespace, where the fixed-layout
`parse_lines` left-strips before the `'#'` test and the paragraph payload
while the flow emitter does not (see the counterexample). -/
theorem C3_classifier_agreement_amended (raw : List Char)
    (h : lstrip raw = raw) : classifyFlow raw = classifyFixed raw := by
  unfold classifyFlow classifyFixed
  cases hline : rstrip raw with
  | nil => rfl
  | cons c rest =>
    have hraw : raw = c :: (rest ++ (raw.reverse.takeWhile isSpace).reverse) := by
      conv_lhs => rw [← rstrip_append_spaces raw]
      rw [hline]
      simp
    have hcns : ¬ isSpace c := by
      rw [hraw] at h
      exact not_space_of_lstrip_cons h
    have hl : lstrip (c :: rest) = c :: rest := by
      rw [lstrip, List.dropWhile_cons, if_neg hcns]
    have hrr : rstrip (c :: rest) = c :: rest := by
      rw [← hline, rstrip_rstrip]
    have hstrip : strip (c :: rest) = c :: rest := by
      unfold strip
      rw [hrr, hl]
    dsimp only
    rw [hl]
    by_cases hc : c = '#'
    · simp [hc]
    · simp only [hc, if_false]
      by_cases hu : uMarkerQ (c :: rest)
      · simp [hu, hl]
      · simp only [hu, if_false]
        have hcond : matchOrderedCond (c :: rest) =
            matchOrderedCondNoWs (c :: rest) := by
          unfold matchOrderedCond matchOrderedCondNoWs
          rw [hl]
        by_cases ho : matchOrderedCondNoWs (c :: rest)
        · rw [hcond, ho]
          simp only [if_true]
          rw [ordered_full_eq_fixed hl
            (by rw [← hline]; exact rstrip_no_space_suffix raw)]
        · rw [hcond]
          simp [ho, hstrip]

/-- C3, counterexample to the claim as stated: on the line `" # T"` (one
leading space before `'#'`) the fixed-layout classifier yields a level-1
Heading with payload `"T"`, while the flow classifier yields a Paragraph
whose payload keeps the leading whitespace — the two tracks do not share
one classifier on such lines. -/
theorem C3_counterexample :
    classifyFixed " # T".data = .heading 1 "T".data ∧
    classifyFlow " # T".data = .para " # T".data ∧
    classifyFlow " # T".data ≠ classifyFixed " # T".data := by
  refine ⟨rfl, rfl, by decide⟩

/-- C3 witness instance. -/
theorem C3_classifier_agreement_amended_witness :
    lstrip "# ok".data = "# ok".data ∧
    classifyFlow "# ok".data = classifyFixed "# ok".data :=
  ⟨rfl, C3_classifier_agreement_amended "# ok".data rfl⟩

theorem span_append {p : Char → Bool} :
    ∀ (d : List Char) {c : Char} {r : List Char}, (∀ x ∈ d, p x) →
      p c = false →
      (d ++ c :: r).takeWhile p = d ∧ (d ++ c :: r).dropWhile p = c :: r := by
  intro d
  induction d with
  | nil =>
    intro c r _ hc
    constructor <;> simp [List.takeWhile_cons, List.dropWhile_cons, hc]
  | cons x xs ih =>
    intro c r hall hc
    have hx : p x = true := hall x (List.mem_cons_self ..)
    have hrest := ih (c := c) (r := r)
      (fun y hy => hall y (List.mem_cons_of_mem x hy)) hc
    constructor
    · rw [List.cons_append, List.takeWhile_cons, if_pos hx, hrest.1]
    · rw [List.cons_append, List.dropWhile_cons, if_pos hx, hrest.2]

theorem isDigit_facts {x : Char} (h : isDigit x = true) :
    isSpace x = false ∧ x ≠ '#' ∧ (x = '-' || x = '*' || x = '+') = false := by
  unfold isDigit at h
  rw [Bool.and_eq_true, decide_eq_true_eq, decide_eq_true_eq] at h
  obtain ⟨h1, h2⟩ := h
  refine ⟨?_, ?_, ?_⟩
  · unfold isSpace
    simp only [Bool.or_eq_false_iff, decide_eq_false_iff_not]
    repeat' apply And.intro
    all_goals (intro he; subst he; revert h1; decide)
  · intro he; subst he; revert h1; decide
  · simp only [Bool.or_eq_false_iff, decide_eq_false_iff_not]
    repeat' apply And.intro
    all_goals (intro he; subst he; revert h1; decide)

theorem rstrip_eq_self_of_getLast {l : List Char}
    (h : ∀ a, l.getLast? = some a → isSpace a = false) : rstrip l = l := by
  unfold rstrip
  cases hr : l.reverse with
  | nil =>
    have hnil : l = [] := by simpa using congrArg List.reverse hr
    rw [hnil]
    simp
  | cons a as =>
    have ha : l.getLast? = some a := by
      rw [← List.head?_reverse, hr]
      rfl
    rw [List.dropWhile_cons, if_neg (by simp [h a ha])]
    rw [← hr, List.reverse_reverse]

theorem uMarkerQ_false {c : Char} {r : List Char}
    (h : (c = '-' || c = '*' || c = '+') = false) :
    uMarkerQ (c :: r) = false := by
  unfold uMarkerQ
  cases r with
  | nil => rfl
  | cons c2 t => simp [h]

/-- C9: both tracks accept a literal `'|'` as an ordered-item marker: for
every line built from a nonempty digit run, then `'|'`, then whitespace
(one space and an optional further whitespace run), then text that does
not begin with whitespace and does not end with whitespace, both
classifiers produce an ordered item whose ordinal is the digit run and
whose text is the remainder — because the character class `[\.|\)]`
contains a literal `'|'`. -/
theorem C9_pipe_marker_ordered (d ws t' : List Char) (c0 : Char)
    (hd : d ≠ []) (hdig : ∀ x ∈ d, isDigit x)
    (hws : ∀ x ∈ ws, isSpace x) (hc0 : isSpace c0 = false)
    (hlast : ∀ a, (c0 :: t').getLast? = some a → isSpace a = false) :
    classifyFlow (d ++ '|' :: ' ' :: (ws ++ c0 :: t')) =
      .olItem d (c0 :: t') ∧
    classifyFixed (d ++ '|' :: ' ' :: (ws ++ c0 :: t')) =
      .olItem d (c0 :: t') := by
  obtain ⟨d0, drest, rfl⟩ : ∃ d0 drest, d = d0 :: drest := by
    cases d with
    | nil => exact absurd rfl hd
    | cons a b => exact ⟨a, b, rfl⟩
  have hd0 : isDigit d0 := hdig d0 (List.mem_cons_self ..)
  obtain ⟨hd0s, hd0hash, hd0mark⟩ := isDigit_facts hd0
  have hsep : sepQ '|' = true := by decide
  have hspc : isSpace ' ' = true := by decide
  have hpipe : isDigit '|' = false := by decide
  have hspan := span_append (p := isDigit) (d0 :: drest)
    (c := '|') (r := ' ' :: (ws ++ c0 :: t')) hdig hpipe
  have hspan2 := span_append (p := isSpace) ws (c := c0) (r := t') hws hc0
  have hlastline : ((d0 :: drest) ++ '|' :: ' ' :: (ws ++ c0 :: t')).getLast? =
      (c0 :: t').getLast? := by
    have hre : (d0 :: drest) ++ '|' :: ' ' :: (ws ++ c0 :: t') =
        ((d0 :: drest) ++ '|' :: ' ' :: ws) ++ (c0 :: t') := by
      simp
    rw [hre, List.getLast?_append_of_ne_nil _ (by simp)]
  have hrl : rstrip ((d0 :: drest) ++ '|' :: ' ' :: (ws ++ c0 :: t')) =
      (d0 :: drest) ++ '|' :: ' ' :: (ws ++ c0 :: t') := by
    apply rstrip_eq_self_of_getLast
    intro a ha
    rw [hlastline] at ha
    exact hlast a ha
  have hls : lstrip ((d0 :: drest) ++ '|' :: ' ' :: (ws ++ c0 :: t')) =
      (d0 :: drest) ++ '|' :: ' ' :: (ws ++ c0 :: t') := by
    rw [List.cons_append, lstrip, List.dropWhile_cons,
      if_neg (by simp [hd0s])]
  have hdw : List.dropWhile isSpace (' ' :: (ws ++ c0 :: t')) = c0 :: t' := by
    rw [List.dropWhile_cons, if_pos hspc, hspan2.2]
  simp only [List.cons_append] at hspan hrl hls ⊢
  have hcond : matchOrderedCond
      (d0 :: (drest ++ '|' :: ' ' :: (ws ++ c0 :: t'))) = true := by
    unfold matchOrderedCond
    dsimp only
    rw [hls, hspan.1, hspan.2]
    simp [hsep, hspc]
  have hcondn : matchOrderedCondNoWs
      (d0 :: (drest ++ '|' :: ' ' :: (ws ++ c0 :: t'))) = true := by
    unfold matchOrderedCondNoWs
    rw [hspan.1, hspan.2]
    simp [hsep, hspc]
  have hfull : matchOrderedFull
      (d0 :: (drest ++ '|' :: ' ' :: (ws ++ c0 :: t'))) =
      some (d0 :: drest, c0 :: t') := by
    unfold matchOrderedFull
    dsimp only
    rw [hls, hspan.1, hspan.2]
    simp [hsep, hspc, hdw, hspan2.2]
  have hfixedm : matchOrderedFixed
      (d0 :: (drest ++ '|' :: ' ' :: (ws ++ c0 :: t'))) =
      some (d0 :: drest, c0 :: t') := by
    unfold matchOrderedFixed
    dsimp only
    rw [hspan.1, hspan.2]
    simp [hsep, hspc, hdw, hspan2.2]
  have humark : uMarkerQ
      (d0 :: (drest ++ '|' :: ' ' :: (ws ++ c0 :: t'))) = false :=
    uMarkerQ_false hd0mark
  constructor
  · unfold classifyFlow
    simp [hrl, hls, hd0hash, humark, hcond, hfull]
  · unfold classifyFixed
    simp [hrl, hls, hd0hash, humark, hcondn, hfixedm]

/-- C9 witness instance: the line `"1| x"`. -/
theorem C9_pipe_marker_ordered_witness :
    (['1'] ≠ ([] : List Char) ∧ (∀ x ∈ ['1'], isDigit x) ∧
     (∀ x ∈ ([] : List Char), isSpace x) ∧ isSpace 'x' = false ∧
     (∀ a, (['x'] : List Char).getLast? = some a → isSpace a = false)) ∧
    classifyFlow "1| x".data = .olItem "1".data "x".data ∧
    classifyFixed "1| x".data = .olItem "1".data "x".data := by
  refine ⟨⟨by decide, by decide, by decide, by decide, by decide⟩, ?_⟩
  have h := C9_pipe_marker_ordered ['1'] [] [] 'x' (by decide) (by decide)
    (by decide) (by decide) (by decide)
  exact h

/-- No literal `<`, `>`, `"` or apostrophe occurs in the list. -/
def noBadChar (l : List Char) : Bool :=
  l.all (fun c => !(c = '<' || c = '>' || c = quoteChar || c = aposChar))

/-- The tail after an ampersand begins one of the five XML entities. -/
def entTail (rest : List Char) : Bool :=
  "amp;".data.isPrefixOf rest || "lt;".data.isPrefixOf rest ||
    "gt;".data.isPrefixOf rest || "quot;".data.isPrefixOf rest ||
    "apos;".data.isPrefixOf rest

/-- Every ampersand in the list begins one of the five XML entities. -/
def ampOk : List Char → Bool
  | [] => true
  | c :: rest => (if c = '&' then entTail rest else true) && ampOk rest

/-- A fully escaped payload: no markup-significant literal characters,
and every ampersand opens an entity. -/
def escOut (t : List Char) : Prop := noBadChar t = true ∧ ampOk t = true

theorem replaceChar_append (c : Char) (rep : List Char) (a b : List Char) :
    replaceChar c rep (a ++ b) = replaceChar c rep a ++ replaceChar c rep b := by
  induction a with
  | nil => simp [replaceChar]
  | cons x xs ih => simp [replaceChar, ih]

theorem escapeXml_append (a b : List Char) :
    escapeXml (a ++ b) = escapeXml a ++ escapeXml b := by
  unfold escapeXml
  rw [replaceChar_append, replaceChar_append, replaceChar_append,
    replaceChar_append, replaceChar_append]

theorem isPrefixOf_append {x y b : List Char} (h : x.isPrefixOf y = true) :
    x.isPrefixOf (y ++ b) = true := by
  rw [List.isPrefixOf_iff_prefix] at h ⊢
  exact h.trans (y.prefix_append b)

theorem entTail_append {r b : List Char} (h : entTail r = true) :
    entTail (r ++ b) = true := by
  unfold entTail at h ⊢
  rcases Bool.or_eq_true_iff.mp h with h1 | h1
  · rcases Bool.or_eq_true_iff.mp h1 with h2 | h2
    · rcases Bool.or_eq_true_iff.mp h2 with h3 | h3
      · rcases Bool.or_eq_true_iff.mp h3 with h4 | h4
        · simp [isPrefixOf_append h4]
        · simp [isPrefixOf_append h4]
      · simp [isPrefixOf_append h3]
    · simp [isPrefixOf_append h2]
  · simp [isPrefixOf_append h1]

theorem ampOk_append {a b : List Char} (ha : ampOk a = true)
    (hb : ampOk b = true) : ampOk (a ++ b) = true := by
  induction a with
  | nil => simpa using hb
  | cons x xs ih =>
    rw [ampOk] at ha
    rw [List.cons_append, ampOk]
    rw [Bool.and_eq_true] at ha ⊢
    constructor
    · by_cases hx : x = '&'
      · rw [if_pos hx] at ha ⊢
        exact entTail_append ha.1
      · rw [if_neg hx]
    · exact ih ha.2

theorem escapeXml_singleton_escOut (x : Char) : escOut (escapeXml [x]) := by
  by_cases h1 : x = '&'
  · subst h1; constructor <;> decide
  · by_cases h2 : x = '<'
    · subst h2; constructor <;> decide
    · by_cases h3 : x = '>'
      · subst h3; constructor <;> decide
      · by_cases h4 : x = quoteChar
        · subst h4; constructor <;> decide
        · by_cases h5 : x = aposChar
          · subst h5; constructor <;> decide
          · have hx : escapeXml [x] = [x] := by
              unfold escapeXml
              simp [replaceChar, h1, h2, h3, h4, h5]
            rw [hx]
            constructor
            · simp [noBadChar, h2, h3, h4, h5]
            · simp [ampOk, h1]

theorem escapeXml_escOut (s : List Char) : escOut (escapeXml s) := by
  induction s with
  | nil => constructor <;> decide
  | cons x xs ih =>
    have hsplit : escapeXml (x :: xs) = escapeXml [x] ++ escapeXml xs := by
      rw [← escapeXml_append]
      rfl
    rw [hsplit]
    have h1 := escapeXml_singleton_escOut x
    constructor
    · have ha := h1.1
      have hb := ih.1
      unfold noBadChar at ha hb ⊢
      rw [List.all_append, ha, hb]
      rfl
    · exact ampOk_append h1.2 ih.2

theorem all_takeWhile (p : Char → Bool) (l : List Char) :
    (l.takeWhile p).all p = true := by
  induction l with
  | nil => rfl
  | cons x xs ih =>
    rw [List.takeWhile_cons]
    split
    · rename_i hx
      simpa [hx] using ih
    · rfl

theorem matchOrderedFull_digits {l n t : List Char}
    (h : matchOrderedFull l = some (n, t)) : n.all isDigit = true := by
  unfold matchOrderedFull at h
  dsimp only at h
  by_cases hds : (lstrip l).takeWhile isDigit = []
  · rw [if_pos hds] at h
    simp at h
  · rw [if_neg hds] at h
    cases hdrop : (lstrip l).dropWhile isDigit with
    | nil => rw [hdrop] at h; simp at h
    | cons c rest =>
      rw [hdrop] at h
      dsimp only at h
      by_cases hsep : sepQ c
      · rw [if_pos hsep] at h
        cases rest with
        | nil => simp at h
        | cons c2 r2 =>
          dsimp only at h
          by_cases hsp : isSpace c2
          · rw [if_pos hsp] at h
            by_cases htail : (c2 :: r2).dropWhile isSpace = []
            · rw [if_pos htail] at h
              simp at h
            · rw [if_neg htail] at h
              simp only [Option.some.injEq, Prod.mk.injEq] at h
              rw [← h.1]
              exact all_takeWhile isDigit (lstrip l)
          · rw [if_neg hsp] at h
            simp at h
      · rw [if_neg hsep] at h
        simp at h

theorem classifyFlow_olItem_digits {raw n t : List Char}
    (h : classifyFlow raw = .olItem n t) : n.all isDigit = true := by
  unfold classifyFlow at h
  dsimp only at h
  cases hr : rstrip raw with
  | nil => rw [hr] at h; simp at h
  | cons c rest =>
    rw [hr] at h
    dsimp only at h
    by_cases h1 : c = '#'
    · simp [h1] at h
    · rw [if_neg h1] at h
      by_cases h2 : uMarkerQ (lstrip (c :: rest))
      · rw [if_pos h2] at h; simp at h
      · rw [if_neg h2] at h
        by_cases h3 : matchOrderedCond (c :: rest)
        · rw [if_pos h3] at h
          cases hm : matchOrderedFull (c :: rest) with
          | none => rw [hm] at h; simp at h
          | some v =>
            rw [hm] at h
            cases v with
            | mk n' t' =>
              dsimp only at h
              cases h
              exact matchOrderedFull_digits hm
        · rw [if_neg h3] at h; simp at h

/-- The observable shape of one emitted flow-markup line: a constant
tag line, or a template whose payload slot is fully escaped (`escOut`). -/
def lineShape (l : List Char) : Prop :=
  l = pbreakLine ∨ l = openUList ∨ l = openOList ∨ l = closeList ∨
    (∃ lvl t, l = headingLine lvl t ∧ escOut t) ∨
    (∃ t, l = ulItemLine t ∧ escOut t) ∨
    (∃ n t, l = olItemLine n t ∧ escOut t ∧ n.all isDigit = true) ∨
    (∃ t, l = paraLine t ∧ escOut t)

theorem odtStep_shape (st : OdtState) (raw : List Char) :
    ∀ l ∈ (odtStep st raw).2, lineShape l := by
  unfold odtStep
  cases hcf : classifyFlow raw with
  | blank =>
    intro l hl
    dsimp only at hl
    rw [List.mem_singleton] at hl
    exact Or.inl hl
  | heading lvl t =>
    intro l hl
    dsimp only at hl
    rw [List.mem_singleton] at hl
    exact Or.inr (Or.inr (Or.inr (Or.inr (Or.inl
      ⟨lvl, escapeXml t, hl, escapeXml_escOut t⟩))))
  | ulItem t =>
    intro l hl
    dsimp only at hl
    by_cases hin : st.inList
    · rw [if_pos hin] at hl
      dsimp only at hl
      rw [List.mem_singleton] at hl
      exact Or.inr (Or.inr (Or.inr (Or.inr (Or.inr (Or.inl
        ⟨escapeXml t, hl, escapeXml_escOut t⟩)))))
    · rw [if_neg hin] at hl
      dsimp only at hl
      rcases List.mem_cons.mp hl with h1 | h1
      · exact Or.inr (Or.inl h1)
      · rw [List.mem_singleton] at h1
        exact Or.inr (Or.inr (Or.inr (Or.inr (Or.inr (Or.inl
          ⟨escapeXml t, h1, escapeXml_escOut t⟩)))))
  | olItem n t =>
    intro l hl
    dsimp only at hl
    have hdig : n.all isDigit = true := classifyFlow_olItem_digits hcf
    by_cases hin : st.inList
    · rw [if_pos hin] at hl
      dsimp only at hl
      rw [List.mem_singleton] at hl
      exact Or.inr (Or.inr (Or.inr (Or.inr (Or.inr (Or.inr (Or.inl
        ⟨n, escapeXml t, hl, escapeXml_escOut t, hdig⟩))))))
    · rw [if_neg hin] at hl
      dsimp only at hl
      rcases List.mem_cons.mp hl with h1 | h1
      · exact Or.inr (Or.inr (Or.inl h1))
      · rw [List.mem_singleton] at h1
        exact Or.inr (Or.inr (Or.inr (Or.inr (Or.inr (Or.inr (Or.inl
          ⟨n, escapeXml t, h1, escapeXml_escOut t, hdig⟩))))))
  | skip =>
    intro l hl
    dsimp only at hl
    by_cases hin : st.inList
    · rw [if_pos hin] at hl
      simp at hl
    · rw [if_neg hin] at hl
      dsimp only at hl
      rw [List.mem_singleton] at hl
      exact Or.inr (Or.inr (Or.inl hl))
  | para t =>
    intro l hl
    dsimp only at hl
    by_cases hin : st.inList
    · rw [if_pos hin] at hl
      dsimp only at hl
      rcases List.mem_cons.mp hl with h1 | h1
      · exact Or.inr (Or.inr (Or.inr (Or.inl h1)))
      · rw [List.mem_singleton] at h1
        exact Or.inr (Or.inr (Or.inr (Or.inr (Or.inr (Or.inr (Or.inr
          ⟨escapeXml t, h1, escapeXml_escOut t⟩))))))
    · rw [if_neg hin] at hl
      dsimp only at hl
      rw [List.mem_singleton] at hl
      exact Or.inr (Or.inr (Or.inr (Or.inr (Or.inr (Or.inr (Or.inr
        ⟨escapeXml t, hl, escapeXml_escOut t⟩))))))

theorem odt_foldl_shape :
    ∀ (rows : List (List Char)) (st : OdtState) (acc : List (List Char)),
      (∀ l ∈ acc, lineShape l) →
      ∀ l ∈ (rows.foldl
          (fun acc raw =>
            let s := odtStep acc.1 raw
            (s.1, acc.2 ++ s.2)) (st, acc)).2, lineShape l := by
  intro rows
  induction rows with
  | nil => intro st acc hacc; simpa using hacc
  | cons raw rest ih =>
    intro st acc hacc
    rw [List.foldl_cons]
    apply ih
    intro l hl
    rcases List.mem_append.mp hl with h1 | h1
    · exact hacc l h1
    · exact odtStep_shape st raw l h1

/-- The cover-page metadata payloads interpolated into `content.xml` by
`create_assignment_odt`: each field passes through `_escape_xml`. -/
def coverEscapedFields (title univ name reg instr sem : List Char) :
    List (List Char) :=
  [escapeXml title, escapeXml univ, escapeXml name, escapeXml reg,
   escapeXml instr, escapeXml sem]

/-- C10: (1) `_escape_xml` leaves no literal `<`, `>`, `"` or apostrophe
in its output, and every `&` in its output begins one of the five
entities (ampersands are replaced first, so no double escaping);
(2) every line emitted by the flow emitter is a constant tag line or a
tag template whose payload slot satisfies those escaping properties (so
every heading, list-item and paragraph payload is escaped before
interpolation); (3) likewise each cover-page metadata field. -/
theorem C10_escape_payloads :
    (∀ s, escOut (escapeXml s)) ∧
    (∀ text l, l ∈ odtContentLines text → lineShape l) ∧
    (∀ title univ name reg instr sem p,
      p ∈ coverEscapedFields title univ name reg instr sem → escOut p) := by
  refine ⟨escapeXml_escOut, ?_, ?_⟩
  · intro text l hl
    unfold odtContentLines at hl
    dsimp only at hl
    rcases List.mem_append.mp hl with h1 | h1
    · exact odt_foldl_shape (splitOnNl (strip text)) ⟨false, 0⟩ []
        (by intro x hx; simp at hx) l h1
    · split at h1
      · rw [List.mem_singleton] at h1
        exact Or.inr (Or.inr (Or.inr (Or.inl h1)))
      · simp at h1
  · intro title univ name reg instr sem p hp
    unfold coverEscapedFields at hp
    rcases List.mem_cons.mp hp with h | h
    · rw [h]; exact escapeXml_escOut title
    · rcases List.mem_cons.mp h with h | h
      · rw [h]; exact escapeXml_escOut univ
      · rcases List.mem_cons.mp h with h | h
        · rw [h]; exact escapeXml_escOut name
        · rcases List.mem_cons.mp h with h | h
          · rw [h]; exact escapeXml_escOut reg
          · rcases List.mem_cons.mp h with h | h
            · rw [h]; exact escapeXml_escOut instr
            · rcases List.mem_cons.mp h with h | h
              · rw [h]; exact escapeXml_escOut sem
              · simp at h

/-- C10 witness instance. -/
theorem C10_escape_payloads_witness :
    (pbreakLine ∈ odtContentLines [] ∧ lineShape pbreakLine) ∧
    (escapeXml "a".data ∈ coverEscapedFields "a".data "b".data "c".data
        "d".data "e".data "f".data ∧
      escOut (escapeXml "a".data)) :=
  ⟨⟨by decide, C10_escape_payloads.2.1 [] pbreakLine (by decide)⟩,
   ⟨by decide,
    C10_escape_payloads.2.2 "a".data "b".data "c".data "d".data "e".data
      "f".data (escapeXml "a".data) (by decide)⟩⟩

end AssignGen
